import Mathlib

/-!
Verification of the envire_core labeled transform graph and TreeView sources.

The C++ sources embedded here are:
  * `src/LabeledTransformTree.hpp` — a wrapper around `boost::labeled_graph`
    over a directed graph whose vertices carry `Frame` payloads and whose
    edges carry `Transform` payloads;
  * `src/graph/TreeView.hpp` — the TreeView snapshot class with its
    publisher-subscription lifetime management;
  * `src/graph/TransformGraphTypes.hpp` and `src/Frame.hpp` — supporting types.

Modelling conventions:
  * vertex descriptors are natural numbers starting at 1; the boost
    `null_vertex()` sentinel is 0;
  * edge descriptors are records carrying a stable id plus the source and
    target vertex descriptors, mirroring boost's edge descriptors;
  * the `Transform` payload is opaque to the code under verification and is
    modelled as a number; `Frame` keeps only its name (uuid and items are
    opaque and never consulted by the verified code);
  * the boost `labeled_graph` semantics embedded below follow the boost
    header: `add_vertex(l, p)` inserts into the label map and only creates a
    vertex when the label was absent (otherwise the existing descriptor is
    returned unchanged); `vertex_by_label` yields `null_vertex()` for an
    absent label; `remove_vertex(l)` does not erase the label-map entry.
-/

namespace EnvireCore

/-- Frame: the vertex payload. Only the name is relevant to the verified
code; uuid and the item list are opaque. -/
structure Frame where
  name : String
  deriving DecidableEq, Repr

/-- A directed edge record of the transform graph: a stable descriptor id,
source and target vertex descriptors, and the Transform payload (opaque,
modelled as a number). -/
structure GEdge where
  eid : Nat
  src : Nat
  tgt : Nat
  tf : Nat
  deriving DecidableEq, Repr

/-- boost's null_vertex() sentinel. Real vertex descriptors start at 1. -/
def null_vertex : Nat := 0

/-- The state of a `LabeledTransformTree`: the arena of vertices with their
Frame properties, the edge list with Transform properties, the label→vertex
map maintained by `boost::labeled_graph`, and the fresh-descriptor counters. -/
structure LabeledTransformTree where
  nextVertexId : Nat
  verts : List (Nat × Frame)
  edgesL : List GEdge
  nextEdgeId : Nat
  labelMap : List (String × Nat)
  deriving DecidableEq, Repr

/-- The empty graph (default constructed tree). -/
def emptyTree : LabeledTransformTree :=
  { nextVertexId := 1, verts := [], edgesL := [], nextEdgeId := 1, labelMap := [] }

/-- Label lookup in the boost label map. -/
def lookupLabel (g : LabeledTransformTree) (l : String) : Option Nat :=
  (g.labelMap.find? (fun p => p.fst == l)).map Prod.snd

/-- boost::vertex_by_label: the mapped descriptor, or null_vertex() when the
label is absent. -/
def vertex_by_label (g : LabeledTransformTree) (l : String) : Nat :=
  (lookupLabel g l).getD null_vertex

/-- boost labeled_graph `add_vertex(l, p)`: try to insert the label; when it
is already present return the existing descriptor and change nothing,
otherwise create a fresh vertex carrying property `p` and record the label. -/
def add_vertexCore (g : LabeledTransformTree) (l : String) (p : Frame) :
    Nat × LabeledTransformTree :=
  match lookupLabel g l with
  | some v => (v, g)
  | none =>
    let v := g.nextVertexId
    (v, { g with
            nextVertexId := v + 1
            verts := g.verts ++ [(v, p)]
            labelMap := g.labelMap ++ [(l, v)] })

/-- LabeledTransformTree::add_vertex(node_label): builds a Frame named after
the label and delegates to the labeled-graph add_vertex. -/
def add_vertex (g : LabeledTransformTree) (node_label : String) :
    Nat × LabeledTransformTree :=
  add_vertexCore g node_label ⟨node_label⟩

/-- LabeledTransformTree::add_vertex(node): adds a vertex for an existing
Frame, keyed by the frame's name. -/
def add_vertexFrame (g : LabeledTransformTree) (node : Frame) :
    Nat × LabeledTransformTree :=
  add_vertexCore g node.name node

/-- boost::edge(u, v, g): the first edge for the ordered pair, if any. -/
def edgeLookup (g : LabeledTransformTree) (u v : Nat) : Option GEdge :=
  g.edgesL.find? (fun e => e.src == u && e.tgt == v)

/-- boost::put(TransformPropertyTag, g, d, tf): replace the Transform stored
on the edge addressed by the descriptor. -/
def putTransform (g : LabeledTransformTree) (d : GEdge) (tf : Nat) :
    LabeledTransformTree :=
  { g with edgesL := g.edgesL.map (fun e => if e.eid = d.eid then { e with tf := tf } else e) }

/-- LabeledTransformTree::add_edge on vertex descriptors: look the ordered
pair up; when an edge already exists overwrite its Transform, otherwise
append a fresh edge. Returns the (descriptor, bool) pair like the C++. -/
def add_edge_vd (g : LabeledTransformTree) (node_from node_to : Nat) (tf : Nat) :
    (GEdge × Bool) × LabeledTransformTree :=
  match edgeLookup g node_from node_to with
  | some d => ((d, true), putTransform g d tf)
  | none =>
    let d : GEdge := ⟨g.nextEdgeId, node_from, node_to, tf⟩
    ((d, true), { g with edgesL := g.edgesL ++ [d], nextEdgeId := g.nextEdgeId + 1 })

/-- LabeledTransformTree::add_edge on labels: resolves both labels and
behaves like the descriptor overload (boost::edge_by_label /
boost::add_edge_by_label both resolve through the label map). -/
def add_edge (g : LabeledTransformTree) (node_from node_to : String) (tf : Nat) :
    (GEdge × Bool) × LabeledTransformTree :=
  add_edge_vd g (vertex_by_label g node_from) (vertex_by_label g node_to) tf

/-- boost::out_degree. -/
def out_degree (g : LabeledTransformTree) (v : Nat) : Nat :=
  (g.edgesL.filter (fun e => e.src == v)).length

/-- boost::in_degree. -/
def in_degree (g : LabeledTransformTree) (v : Nat) : Nat :=
  (g.edgesL.filter (fun e => e.tgt == v)).length

/-- in-degree plus out-degree, the isolation test used by destructive
edge removal. -/
def degree (g : LabeledTransformTree) (v : Nat) : Nat :=
  in_degree g v + out_degree g v

/-- boost::remove_vertex(v, g.graph()): drops the vertex record. The label
map is left untouched (the labeled_graph bug the sources work around). -/
def removeVertexRaw (g : LabeledTransformTree) (v : Nat) : LabeledTransformTree :=
  { g with verts := g.verts.filter (fun p => decide (¬ p.fst = v)) }

/-- boost::remove_edge(u, v, g): removes every edge of the ordered pair. -/
def eraseEdgesBetween (g : LabeledTransformTree) (u v : Nat) : LabeledTransformTree :=
  { g with edgesL := g.edgesL.filter (fun e => decide (¬ (e.src = u ∧ e.tgt = v))) }

/-- The destructive block shared by both remove_edge overloads: after the
edge removal, the source endpoint is checked first and removed when its
in-degree plus out-degree is zero, then the target endpoint likewise. -/
def destructiveCheck (g1 : LabeledTransformTree) (svd tvd : Nat) : LabeledTransformTree :=
  let g2 := if degree g1 svd = 0 then removeVertexRaw g1 svd else g1
  if degree g2 tvd = 0 then removeVertexRaw g2 tvd else g2

/-- LabeledTransformTree::remove_edge(node_from, node_to, destructive):
removes the ordered-pair edge (a no-op when absent — there is no existence
check) and, if destructive, removes each isolated endpoint, source first. -/
def remove_edge_vd (g : LabeledTransformTree) (node_from node_to : Nat)
    (destructive : Bool) : LabeledTransformTree :=
  let g1 := eraseEdgesBetween g node_from node_to
  if destructive then destructiveCheck g1 node_from node_to else g1

/-- LabeledTransformTree::remove_edge(ed, destructive): removes the edge
addressed by the descriptor, then the same destructive endpoint checks. -/
def remove_edge_desc (g : LabeledTransformTree) (ed : GEdge) (destructive : Bool) :
    LabeledTransformTree :=
  let g1 := { g with edgesL := g.edgesL.filter (fun e => decide (¬ e.eid = ed.eid)) }
  if destructive then destructiveCheck g1 ed.src ed.tgt else g1

/-- LabeledTransformTree::remove_edge on labels: resolves both labels
(null_vertex for an absent one) and delegates to the descriptor-pair
overload. No existence check of any kind is performed. -/
def remove_edge_label (g : LabeledTransformTree) (node_from node_to : String)
    (destructive : Bool) : LabeledTransformTree :=
  remove_edge_vd g (vertex_by_label g node_from) (vertex_by_label g node_to) destructive

/-- boost::clear_vertex: removes every edge incident to the vertex. -/
def clear_vertex (g : LabeledTransformTree) (v : Nat) : LabeledTransformTree :=
  { g with edgesL := g.edgesL.filter (fun e => decide (¬ (e.src = v ∨ e.tgt = v))) }

/-- LabeledTransformTree::remove_vertex(node_label): clears the incident
edges, then removes the vertex resolved from the label. -/
def remove_vertex_label (g : LabeledTransformTree) (node_label : String) :
    LabeledTransformTree :=
  let v := vertex_by_label g node_label
  removeVertexRaw (clear_vertex g v) v

/-- LabeledTransformTree::remove_vertex(vd): clears the incident edges,
then removes the vertex. -/
def remove_vertex_vd (g : LabeledTransformTree) (vd : Nat) : LabeledTransformTree :=
  removeVertexRaw (clear_vertex g vd) vd

/-- LabeledTransformTree::getTransform: resolve the edge descriptor and
return the stored Transform. -/
def getTransform (g : LabeledTransformTree) (ed : GEdge) : Option Nat :=
  (g.edgesL.find? (fun e => e.eid == ed.eid)).map GEdge.tf

/-- LabeledTransformTree::getFrame. -/
def getFrame (g : LabeledTransformTree) (vd : Nat) : Option Frame :=
  (g.verts.find? (fun p => p.fst == vd)).map Prod.snd

/-- LabeledTransformTree::num_vertices. -/
def num_vertices (g : LabeledTransformTree) : Nat := g.verts.length

/-- LabeledTransformTree::num_edges. -/
def num_edges (g : LabeledTransformTree) : Nat := g.edgesL.length

/-- Vertex-descriptor membership in the vertex arena. -/
def VertexMem (g : LabeledTransformTree) (v : Nat) : Prop :=
  v ∈ g.verts.map Prod.fst

instance (g : LabeledTransformTree) (v : Nat) : Decidable (VertexMem g v) := by
  unfold VertexMem; infer_instance

/-- Number of directed edges stored for an ordered pair of descriptors. -/
def countEdges (g : LabeledTransformTree) (u v : Nat) : Nat :=
  (g.edgesL.filter (fun e => decide (e.src = u ∧ e.tgt = v))).length

/-- Edge descriptor ids are pairwise distinct and below the fresh counter
(the invariant boost's stable descriptors provide). -/
def EdgeIdsOk (g : LabeledTransformTree) : Prop :=
  (g.edgesL.map GEdge.eid).Nodup ∧ ∀ e ∈ g.edgesL, e.eid < g.nextEdgeId

instance (g : LabeledTransformTree) : Decidable (EdgeIdsOk g) := by
  unfold EdgeIdsOk; infer_instance

/-- Vertex descriptors are below the fresh counter. -/
def VertexIdsOk (g : LabeledTransformTree) : Prop :=
  ∀ p ∈ g.verts, p.fst < g.nextVertexId

instance (g : LabeledTransformTree) : Decidable (VertexIdsOk g) := by
  unfold VertexIdsOk; infer_instance

/-- Every edge has both endpoints present in the vertex arena. -/
def WellFormed (g : LabeledTransformTree) : Prop :=
  ∀ e ∈ g.edgesL, VertexMem g e.src ∧ VertexMem g e.tgt

/-! ### Generic list lemmas used by the graph proofs -/

theorem find?_append_right {α : Type} (l : List α) (x : α) (q : α → Bool)
    (h : ∀ e ∈ l, q e = false) :
    (l ++ [x]).find? q = if q x then some x else none := by
  induction l with
  | nil => cases hqx : q x <;> simp [List.find?, hqx]
  | cons a l ih =>
    have ha : q a = false := h a (by simp)
    simp only [List.cons_append, List.find?, ha]
    exact ih (fun e he => h e (by simp [he]))

theorem find?_map_pres {α : Type} (l : List α) (fn : α → α) (q : α → Bool)
    (h : ∀ e, q (fn e) = q e) :
    (l.map fn).find? q = (l.find? q).map fn := by
  induction l with
  | nil => rfl
  | cons a l ih =>
    by_cases hq : q a
    · simp [List.find?, h, hq]
    · simp only [List.map_cons, List.find?, h a, Bool.not_eq_true] at *
      simp [hq, ih]

/-! ### Small facts about the graph operations -/

theorem edges_removeVertexRaw (g : LabeledTransformTree) (v : Nat) :
    (removeVertexRaw g v).edgesL = g.edgesL := rfl

theorem degree_removeVertexRaw (g : LabeledTransformTree) (v u : Nat) :
    degree (removeVertexRaw g v) u = degree g u := rfl

theorem degree_congr {g g' : LabeledTransformTree} (h : g.edgesL = g'.edgesL) (v : Nat) :
    degree g v = degree g' v := by
  simp [degree, in_degree, out_degree, h]

theorem mem_removeVertexRaw (g : LabeledTransformTree) (v w : Nat) :
    VertexMem (removeVertexRaw g v) w ↔ VertexMem g w ∧ ¬ w = v := by
  simp only [VertexMem, removeVertexRaw, List.mem_map, List.mem_filter,
    decide_eq_true_eq]
  constructor
  · rintro ⟨p, ⟨hp, hne⟩, rfl⟩
    exact ⟨⟨p, hp, rfl⟩, hne⟩
  · rintro ⟨⟨p, hp, rfl⟩, hne⟩
    exact ⟨p, ⟨hp, hne⟩, rfl⟩

theorem destructiveCheck_edges (g1 : LabeledTransformTree) (s t : Nat) :
    (destructiveCheck g1 s t).edgesL = g1.edgesL := by
  by_cases h1 : degree g1 s = 0 <;> by_cases h2 : degree g1 t = 0 <;>
    simp [destructiveCheck, h1, h2, degree_removeVertexRaw, edges_removeVertexRaw]

theorem mem_destructiveCheck (g1 : LabeledTransformTree) (s t v : Nat) :
    VertexMem (destructiveCheck g1 s t) v ↔
      VertexMem g1 v ∧ ¬ (v = s ∧ degree g1 s = 0) ∧ ¬ (v = t ∧ degree g1 t = 0) := by
  by_cases h1 : degree g1 s = 0 <;> by_cases h2 : degree g1 t = 0 <;>
    simp [destructiveCheck, h1, h2, degree_removeVertexRaw, mem_removeVertexRaw] <;>
    tauto

/-! ### Concrete graphs used by counterexamples and witnesses -/

/-- A one-vertex graph holding the frame named "A". -/
def c2Graph : LabeledTransformTree := (add_vertex emptyTree "A").snd

/-- The two-edge path A—B—C built through the public interface. -/
def c8Graph : LabeledTransformTree :=
  let s1 := (add_vertex emptyTree "A").snd
  let s2 := (add_vertex s1 "B").snd
  let s3 := (add_vertex s2 "C").snd
  let s4 := (add_edge s3 "A" "B" 10).snd
  (add_edge s4 "B" "C" 20).snd

/-- Destructive removal of A—B, then of B—C. -/
def c8Forward : LabeledTransformTree :=
  remove_edge_label (remove_edge_label c8Graph "A" "B" true) "B" "C" true

/-- Destructive removal of B—C, then of A—B. -/
def c8Reverse : LabeledTransformTree :=
  remove_edge_label (remove_edge_label c8Graph "B" "C" true) "A" "B" true

/-! ### Claim theorems -/

/-- Claim C8: on the two-edge path A—B—C, destructively removing transform
A—B and then B—C leaves zero vertices and zero edges, and performing the two
destructive removals in the opposite order produces the same final graph
state. -/
theorem destructive_path_removal_empty :
    num_vertices c8Forward = 0 ∧ num_edges c8Forward = 0 ∧ c8Forward = c8Reverse := by
  decide

/-- Claim C2, counterexample: adding the frame name "A" to a graph that
already holds a frame "A" does not fail — the C++ returns a plain
vertex_descriptor with no error path, handing back the existing identity
(descriptor 1) and leaving the graph completely unchanged. This refutes
"addFrame(n) fails with DuplicateFrame" as stated. -/
theorem addFrame_duplicate_counterexample :
    (add_vertex c2Graph "A").snd = c2Graph ∧ (add_vertex c2Graph "A").fst = 1 ∧
      VertexMem c2Graph 1 ∧ num_vertices (add_vertex c2Graph "A").snd = 1 := by
  decide

/-- Claim C2, amended: for a name already present, add_vertex returns the
existing vertex identity and performs no mutation at all (update-free,
failure-free); for a name not present, it creates a new Frame vertex named
after the label and returns its fresh identity. -/
theorem addFrame_spec (g : LabeledTransformTree) (n : String) (hok : VertexIdsOk g) :
    (∀ v, lookupLabel g n = some v → add_vertex g n = (v, g)) ∧
    (lookupLabel g n = none →
       (add_vertex g n).fst = g.nextVertexId ∧
       num_vertices (add_vertex g n).snd = num_vertices g + 1 ∧
       lookupLabel (add_vertex g n).snd n = some g.nextVertexId ∧
       getFrame (add_vertex g n).snd g.nextVertexId = some ⟨n⟩ ∧
       VertexMem (add_vertex g n).snd g.nextVertexId) := by
  constructor
  · intro v hv
    simp [add_vertex, add_vertexCore, hv]
  · intro hnone
    have hfind : g.labelMap.find? (fun p => p.fst == n) = none := by
      cases hf : g.labelMap.find? (fun p => p.fst == n) with
      | none => rfl
      | some p => rw [lookupLabel, hf] at hnone; simp at hnone
    have hmap : ∀ p ∈ g.labelMap, (p.fst == n) = false := by
      intro p hp
      simpa using List.find?_eq_none.mp hfind p hp
    refine ⟨by simp [add_vertex, add_vertexCore, lookupLabel, hfind], ?_, ?_, ?_, ?_⟩
    · simp [add_vertex, add_vertexCore, lookupLabel, hfind, num_vertices]
    · simp only [add_vertex, add_vertexCore, lookupLabel, hfind, Option.map_none']
      rw [find?_append_right _ _ _ hmap]
      simp
    · have hverts : ∀ p ∈ g.verts, (p.fst == g.nextVertexId) = false := by
        intro p hp
        have := hok p hp
        simp only [beq_eq_false_iff_ne, ne_eq]
        omega
      simp only [add_vertex, add_vertexCore, lookupLabel, hfind, Option.map_none', getFrame]
      rw [find?_append_right _ _ _ hverts]
      simp
    · simp [add_vertex, add_vertexCore, lookupLabel, hfind, VertexMem]

/-- Witness for the amended C2 theorem at a concrete graph and fresh name. -/
theorem addFrame_spec_witness :
    VertexIdsOk c2Graph ∧
      lookupLabel (add_vertex c2Graph "B").snd "B" = some c2Graph.nextVertexId :=
  ⟨by decide, ((addFrame_spec c2Graph "B" (by decide)).2 (by decide)).2.2.1⟩

/-- The endpoint fate after the destructive block, for any graph g1 whose
vertex arena agrees with g: an endpoint survives exactly when it was present
and is not isolated in g1; all other vertices are untouched. -/
theorem destructive_spec_general (g g1 : LabeledTransformTree) (s t : Nat)
    (hverts : g1.verts = g.verts) :
    (VertexMem (destructiveCheck g1 s t) s ↔ VertexMem g s ∧ ¬ degree g1 s = 0) ∧
    (VertexMem (destructiveCheck g1 s t) t ↔ VertexMem g t ∧ ¬ degree g1 t = 0) ∧
    (∀ v, ¬ v = s → ¬ v = t →
       (VertexMem (destructiveCheck g1 s t) v ↔ VertexMem g v)) := by
  have hm : ∀ v, VertexMem g1 v ↔ VertexMem g v := by
    intro v; simp [VertexMem, hverts]
  refine ⟨?_, ?_, ?_⟩
  · rw [mem_destructiveCheck, hm]
    by_cases hst : s = t
    · subst hst; tauto
    · have : ¬ (s = t ∧ degree g1 t = 0) := by tauto
      tauto
  · rw [mem_destructiveCheck, hm]
    by_cases hst : t = s
    · subst hst; tauto
    · have : ¬ (t = s ∧ degree g1 s = 0) := by tauto
      tauto
  · intro v hvs hvt
    rw [mem_destructiveCheck, hm]
    have h1 : ¬ (v = s ∧ degree g1 s = 0) := by tauto
    have h2 : ¬ (v = t ∧ degree g1 t = 0) := by tauto
    tauto

/-- Claim C3: destructive edge removal (both the edge-descriptor overload
and the endpoint-pair overload behind removeTransform) removes the edge and
then removes each endpoint — source checked first, then target — exactly
when its in-degree plus out-degree is zero once the edge is gone; an
endpoint with remaining incident edges is never removed, and no other
vertex is touched. -/
theorem remove_edge_destructive_endpoints (g : LabeledTransformTree) (ed : GEdge)
    (hed : ed ∈ g.edgesL) :
    ((remove_edge_desc g ed true).edgesL
        = g.edgesL.filter (fun e => decide (¬ e.eid = ed.eid)) ∧
     (remove_edge_desc g ed true).edgesL.length < g.edgesL.length ∧
     (VertexMem (remove_edge_desc g ed true) ed.src ↔
        VertexMem g ed.src ∧ ¬ degree (remove_edge_desc g ed true) ed.src = 0) ∧
     (VertexMem (remove_edge_desc g ed true) ed.tgt ↔
        VertexMem g ed.tgt ∧ ¬ degree (remove_edge_desc g ed true) ed.tgt = 0) ∧
     (∀ v, ¬ v = ed.src → ¬ v = ed.tgt →
        (VertexMem (remove_edge_desc g ed true) v ↔ VertexMem g v))) ∧
    ((remove_edge_vd g ed.src ed.tgt true).edgesL
        = g.edgesL.filter (fun e => decide (¬ (e.src = ed.src ∧ e.tgt = ed.tgt))) ∧
     (remove_edge_vd g ed.src ed.tgt true).edgesL.length < g.edgesL.length ∧
     (VertexMem (remove_edge_vd g ed.src ed.tgt true) ed.src ↔
        VertexMem g ed.src ∧ ¬ degree (remove_edge_vd g ed.src ed.tgt true) ed.src = 0) ∧
     (VertexMem (remove_edge_vd g ed.src ed.tgt true) ed.tgt ↔
        VertexMem g ed.tgt ∧ ¬ degree (remove_edge_vd g ed.src ed.tgt true) ed.tgt = 0) ∧
     (∀ v, ¬ v = ed.src → ¬ v = ed.tgt →
        (VertexMem (remove_edge_vd g ed.src ed.tgt true) v ↔ VertexMem g v))) := by
  have hdesc : remove_edge_desc g ed true
      = destructiveCheck
          { g with edgesL := g.edgesL.filter (fun e => decide (¬ e.eid = ed.eid)) }
          ed.src ed.tgt := by
    simp [remove_edge_desc]
  have hvd : remove_edge_vd g ed.src ed.tgt true
      = destructiveCheck (eraseEdgesBetween g ed.src ed.tgt) ed.src ed.tgt := by
    simp [remove_edge_vd]
  have hdE : (remove_edge_desc g ed true).edgesL
      = g.edgesL.filter (fun e => decide (¬ e.eid = ed.eid)) := by
    rw [hdesc, destructiveCheck_edges]
  have hvE : (remove_edge_vd g ed.src ed.tgt true).edgesL
      = g.edgesL.filter (fun e => decide (¬ (e.src = ed.src ∧ e.tgt = ed.tgt))) := by
    rw [hvd, destructiveCheck_edges]; rfl
  have hdLen : (remove_edge_desc g ed true).edgesL.length < g.edgesL.length := by
    rw [hdE]
    exact List.length_filter_lt_length_iff_exists.mpr ⟨ed, hed, by simp⟩
  have hvLen : (remove_edge_vd g ed.src ed.tgt true).edgesL.length < g.edgesL.length := by
    rw [hvE]
    exact List.length_filter_lt_length_iff_exists.mpr ⟨ed, hed, by simp⟩
  have hd := destructive_spec_general g
      { g with edgesL := g.edgesL.filter (fun e => decide (¬ e.eid = ed.eid)) }
      ed.src ed.tgt rfl
  have hv := destructive_spec_general g (eraseEdgesBetween g ed.src ed.tgt)
      ed.src ed.tgt rfl
  have hdDeg : ∀ x, degree (remove_edge_desc g ed true) x
      = degree { g with edgesL := g.edgesL.filter (fun e => decide (¬ e.eid = ed.eid)) } x := by
    intro x; exact degree_congr hdE x
  have hvDeg : ∀ x, degree (remove_edge_vd g ed.src ed.tgt true) x
      = degree (eraseEdgesBetween g ed.src ed.tgt) x := by
    intro x; exact degree_congr hvE x
  refine ⟨⟨hdE, hdLen, ?_, ?_, ?_⟩, ⟨hvE, hvLen, ?_, ?_, ?_⟩⟩
  · rw [hdDeg ed.src, hdesc]; exact hd.1
  · rw [hdDeg ed.tgt, hdesc]; exact hd.2.1
  · intro v hs ht; rw [hdesc]; exact hd.2.2 v hs ht
  · rw [hvDeg ed.src, hvd]; exact hv.1
  · rw [hvDeg ed.tgt, hvd]; exact hv.2.1
  · intro v hs ht; rw [hvd]; exact hv.2.2 v hs ht

/-- Witness for C3 at the concrete path graph: removing edge A→B (descriptor
id 1, endpoints 1→2) destructively keeps endpoint 2 (still connected to 3)
and removes endpoint 1. -/
theorem remove_edge_destructive_endpoints_witness :
    (⟨1, 1, 2, 10⟩ : GEdge) ∈ c8Graph.edgesL ∧
      (VertexMem (remove_edge_desc c8Graph ⟨1, 1, 2, 10⟩ true) 2 ↔
        VertexMem c8Graph 2 ∧ ¬ degree (remove_edge_desc c8Graph ⟨1, 1, 2, 10⟩ true) 2 = 0) :=
  ⟨by decide, (remove_edge_destructive_endpoints c8Graph ⟨1, 1, 2, 10⟩ (by decide)).1.2.2.2.1⟩

/-- Two isolated frames A and B with no edge between them. -/
def c4Graph : LabeledTransformTree :=
  (add_vertex (add_vertex emptyTree "A").snd "B").snd

/-- Claim C4, counterexample: on a graph holding frames "A" and "B" and no
edge at all, removeTransform("A","B",destructive=true) does not fail with
UnknownEdge and does not leave the graph unchanged — the edge-removal step
is a silent no-op and the destructive block then deletes both (isolated)
endpoints, leaving zero vertices. -/
theorem removeTransform_missing_edge_counterexample :
    num_vertices c4Graph = 2 ∧ num_edges c4Graph = 0 ∧
      num_vertices (remove_edge_label c4Graph "A" "B" true) = 0 ∧
      ¬ remove_edge_label c4Graph "A" "B" true = c4Graph := by
  decide

/-- Claim C4, amended: removeTransform performs no existence check and
reports no UnknownFrame/UnknownEdge failure. When both endpoint labels
resolve but no edge exists between them, the non-destructive call leaves
the graph unchanged (a silent no-op), while the destructive call leaves the
edges unchanged but still deletes each named endpoint that is isolated. -/
theorem removeTransform_missing_edge_spec (g : LabeledTransformTree) (a b : String)
    (va vb : Nat) (ha : lookupLabel g a = some va) (hb : lookupLabel g b = some vb)
    (hno : countEdges g va vb = 0) :
    remove_edge_label g a b false = g ∧
    (remove_edge_label g a b true).edgesL = g.edgesL ∧
    (VertexMem (remove_edge_label g a b true) va ↔ VertexMem g va ∧ ¬ degree g va = 0) ∧
    (VertexMem (remove_edge_label g a b true) vb ↔ VertexMem g vb ∧ ¬ degree g vb = 0) ∧
    (∀ v, ¬ v = va → ¬ v = vb →
       (VertexMem (remove_edge_label g a b true) v ↔ VertexMem g v)) := by
  have hva : vertex_by_label g a = va := by simp [vertex_by_label, ha]
  have hvb : vertex_by_label g b = vb := by simp [vertex_by_label, hb]
  have herase : eraseEdgesBetween g va vb = g := by
    have h0 : g.edgesL.filter (fun e => decide (e.src = va ∧ e.tgt = vb)) = [] :=
      List.length_eq_zero.mp hno
    have hall := List.filter_eq_nil_iff.mp h0
    have hfe : g.edgesL.filter (fun e => decide (¬ (e.src = va ∧ e.tgt = vb))) = g.edgesL := by
      apply List.filter_eq_self.mpr
      intro e he
      have := hall e he
      simp only [decide_eq_true_eq] at this ⊢
      tauto
    show { g with edgesL := g.edgesL.filter (fun e => decide (¬ (e.src = va ∧ e.tgt = vb))) } = g
    rw [hfe]
  have htrue : remove_edge_label g a b true = destructiveCheck g va vb := by
    simp only [remove_edge_label, hva, hvb, remove_edge_vd, herase, if_true]
  have hfalse : remove_edge_label g a b false = g := by
    simp only [remove_edge_label, hva, hvb, remove_edge_vd, Bool.false_eq_true, if_false]
    exact herase
  have hgen := destructive_spec_general g g va vb rfl
  refine ⟨hfalse, ?_, ?_, ?_, ?_⟩
  · rw [htrue, destructiveCheck_edges]
  · rw [htrue]; exact hgen.1
  · rw [htrue]; exact hgen.2.1
  · intro v hva' hvb'; rw [htrue]; exact hgen.2.2 v hva' hvb'

/-- Witness for the amended C4 theorem on the concrete no-edge graph. -/
theorem removeTransform_missing_edge_spec_witness :
    (lookupLabel c4Graph "A" = some 1 ∧ lookupLabel c4Graph "B" = some 2 ∧
       countEdges c4Graph 1 2 = 0) ∧
      remove_edge_label c4Graph "A" "B" false = c4Graph :=
  ⟨⟨by decide, by decide, by decide⟩,
   (removeTransform_missing_edge_spec c4Graph "A" "B" 1 2 (by decide) (by decide)
      (by decide)).1⟩

/-- Claim C7: removing a frame, by label or by vertex descriptor, first
clears every incident edge and then drops the vertex: no edge with the
removed endpoint survives, edges not incident to it are kept, other
vertices are untouched, and well-formedness (no dangling endpoints) is
preserved. -/
theorem removeFrame_no_dangling (g : LabeledTransformTree) (lbl : String) (v : Nat)
    (h : lookupLabel g lbl = some v) :
    remove_vertex_label g lbl = remove_vertex_vd g v ∧
    (∀ e ∈ (remove_vertex_vd g v).edgesL, ¬ e.src = v ∧ ¬ e.tgt = v) ∧
    ¬ VertexMem (remove_vertex_vd g v) v ∧
    (∀ e ∈ g.edgesL, ¬ e.src = v → ¬ e.tgt = v → e ∈ (remove_vertex_vd g v).edgesL) ∧
    (∀ w, ¬ w = v → (VertexMem (remove_vertex_vd g v) w ↔ VertexMem g w)) ∧
    (WellFormed g → WellFormed (remove_vertex_vd g v)) := by
  have hvbl : vertex_by_label g lbl = v := by simp [vertex_by_label, h]
  have hedges : (remove_vertex_vd g v).edgesL
      = g.edgesL.filter (fun e => decide (¬ (e.src = v ∨ e.tgt = v))) := rfl
  have hclear : ∀ w, VertexMem (clear_vertex g v) w ↔ VertexMem g w := by
    intro w; simp [VertexMem, clear_vertex]
  refine ⟨?_, ?_, ?_, ?_, ?_, ?_⟩
  · simp [remove_vertex_label, hvbl, remove_vertex_vd]
  · intro e he
    rw [hedges] at he
    have hne := (List.mem_filter.mp he).2
    simp only [decide_eq_true_eq] at hne
    tauto
  · rw [remove_vertex_vd, mem_removeVertexRaw]
    simp
  · intro e he hs ht
    rw [hedges, List.mem_filter]
    exact ⟨he, by simp [hs, ht]⟩
  · intro w hw
    rw [remove_vertex_vd, mem_removeVertexRaw, hclear]
    tauto
  · intro hwf e he
    rw [hedges] at he
    rcases List.mem_filter.mp he with ⟨heg, hne⟩
    simp only [decide_eq_true_eq] at hne
    rcases hwf e heg with ⟨hsrc, htgt⟩
    constructor
    · rw [remove_vertex_vd, mem_removeVertexRaw, hclear]
      exact ⟨hsrc, fun hc => hne (Or.inl hc)⟩
    · rw [remove_vertex_vd, mem_removeVertexRaw, hclear]
      exact ⟨htgt, fun hc => hne (Or.inr hc)⟩

/-- Witness for C7 at the concrete path graph, removing the middle frame. -/
theorem removeFrame_no_dangling_witness :
    lookupLabel c8Graph "B" = some 2 ∧
      ∀ e ∈ (remove_vertex_vd c8Graph 2).edgesL, ¬ e.src = 2 ∧ ¬ e.tgt = 2 :=
  ⟨by decide, (removeFrame_no_dangling c8Graph "B" 2 (by decide)).2.1⟩

/-! ### Lemmas about edge insertion and Transform replacement -/

theorem filter_length_map_pres {α : Type} (l : List α) (fn : α → α) (q : α → Bool)
    (h : ∀ e, q (fn e) = q e) :
    ((l.map fn).filter q).length = (l.filter q).length := by
  induction l with
  | nil => rfl
  | cons a l ih =>
    by_cases hq : q a = true <;> simp [List.filter_cons, h, hq, ih]

theorem countEdges_eq_zero_of_lookup_none {g : LabeledTransformTree} {u v : Nat}
    (h : edgeLookup g u v = none) : countEdges g u v = 0 := by
  have hall := List.find?_eq_none.mp h
  simp only [countEdges, List.length_eq_zero, List.filter_eq_nil_iff]
  intro e he
  have := hall e he
  simp only [Bool.and_eq_true, beq_iff_eq, decide_eq_true_eq] at this ⊢
  tauto

theorem edgeLookup_some {g : LabeledTransformTree} {u v : Nat} {d : GEdge}
    (h : edgeLookup g u v = some d) : d ∈ g.edgesL ∧ d.src = u ∧ d.tgt = v := by
  refine ⟨List.mem_of_find?_eq_some h, ?_⟩
  have := List.find?_some h
  simp only [Bool.and_eq_true, beq_iff_eq] at this
  exact this

theorem countEdges_putTransform (g : LabeledTransformTree) (d : GEdge) (tf u v : Nat) :
    countEdges (putTransform g d tf) u v = countEdges g u v := by
  simp only [countEdges, putTransform]
  apply filter_length_map_pres
  intro e
  by_cases h : e.eid = d.eid <;> simp [h]

theorem eids_putTransform (g : LabeledTransformTree) (d : GEdge) (tf : Nat) :
    (putTransform g d tf).edgesL.map GEdge.eid = g.edgesL.map GEdge.eid := by
  simp only [putTransform, List.map_map]
  apply List.map_congr_left
  intro e _
  by_cases h : e.eid = d.eid <;> simp [Function.comp, h]

theorem getTransform_putTransform (g : LabeledTransformTree) (d d2 : GEdge) (tf : Nat)
    (hd2 : d2.eid = d.eid) (hmem : ∃ e ∈ g.edgesL, e.eid = d.eid) :
    getTransform (putTransform g d tf) d2 = some tf := by
  have hq : ∀ e : GEdge,
      ((if e.eid = d.eid then { e with tf := tf } else e).eid == d2.eid) = (e.eid == d2.eid) := by
    intro e
    by_cases h : e.eid = d.eid <;> simp [h]
  have hmap := find?_map_pres g.edgesL
      (fun e => if e.eid = d.eid then { e with tf := tf } else e)
      (fun e => e.eid == d2.eid) hq
  have hsome : ∃ e0, g.edgesL.find? (fun e => e.eid == d2.eid) = some e0 := by
    rcases hmem with ⟨e1, he1, heq⟩
    have : (g.edgesL.find? (fun e => e.eid == d2.eid)).isSome :=
      List.find?_isSome.mpr ⟨e1, he1, by simp [heq, hd2]⟩
    exact Option.isSome_iff_exists.mp this
  rcases hsome with ⟨e0, he0⟩
  have he0id : e0.eid = d2.eid := by simpa using List.find?_some he0
  simp only [getTransform, putTransform] at *
  rw [hmap, he0]
  simp only [Option.map_some']
  rw [if_pos (show e0.eid = d.eid by rw [he0id, hd2])]

/-- The full postcondition of one label-level add_edge call on a graph where
both labels resolve and the no-parallel-edge invariant holds: both labels
still resolve, the descriptor invariant is preserved, exactly one edge for
the ordered pair remains, and getTransform on the returned descriptor gives
back the just-stored Transform. -/
theorem add_edge_post (g : LabeledTransformTree) (a b : String) (va vb t : Nat)
    (ha : lookupLabel g a = some va) (hb : lookupLabel g b = some vb)
    (hids : EdgeIdsOk g) (hpar : countEdges g va vb ≤ 1) :
    lookupLabel (add_edge g a b t).snd a = some va ∧
    lookupLabel (add_edge g a b t).snd b = some vb ∧
    EdgeIdsOk (add_edge g a b t).snd ∧
    countEdges (add_edge g a b t).snd va vb = 1 ∧
    getTransform (add_edge g a b t).snd (add_edge g a b t).fst.fst = some t := by
  have hva : vertex_by_label g a = va := by simp [vertex_by_label, ha]
  have hvb : vertex_by_label g b = vb := by simp [vertex_by_label, hb]
  cases hl : edgeLookup g va vb with
  | none =>
    have hE : (add_edge g a b t).snd.edgesL
        = g.edgesL ++ [⟨g.nextEdgeId, va, vb, t⟩] := by
      simp only [add_edge, hva, hvb, add_edge_vd, hl]
    have hN : (add_edge g a b t).snd.nextEdgeId = g.nextEdgeId + 1 := by
      simp only [add_edge, hva, hvb, add_edge_vd, hl]
    have hL : (add_edge g a b t).snd.labelMap = g.labelMap := by
      simp only [add_edge, hva, hvb, add_edge_vd, hl]
    have hF : (add_edge g a b t).fst.fst = ⟨g.nextEdgeId, va, vb, t⟩ := by
      simp only [add_edge, hva, hvb, add_edge_vd, hl]
    have hfresh : ∀ e ∈ g.edgesL, (e.eid == g.nextEdgeId) = false := by
      intro e he
      have := hids.2 e he
      simp only [beq_eq_false_iff_ne, ne_eq]
      omega
    refine ⟨?_, ?_, ⟨?_, ?_⟩, ?_, ?_⟩
    · rw [lookupLabel, hL]; exact ha
    · rw [lookupLabel, hL]; exact hb
    · rw [hE]
      simp only [List.map_append, List.map_cons, List.map_nil, List.nodup_append]
      refine ⟨hids.1, List.nodup_singleton _, ?_⟩
      intro x hx hx1
      simp only [List.mem_singleton] at hx1
      rcases List.mem_map.mp hx with ⟨e, he, rfl⟩
      have := hids.2 e he
      omega
    · intro e he
      rw [hE] at he
      rw [hN]
      rcases List.mem_append.mp he with h1 | h1
      · have := hids.2 e h1; omega
      · simp only [List.mem_singleton] at h1
        subst h1
        show g.nextEdgeId < g.nextEdgeId + 1
        omega
    · have h0 : countEdges g va vb = 0 := countEdges_eq_zero_of_lookup_none hl
      simp only [countEdges] at h0 ⊢
      rw [hE, List.filter_append, List.length_append, h0]
      simp
    · rw [getTransform, hE, hF]
      rw [find?_append_right _ _ _ hfresh]
      simp
  | some d =>
    rcases edgeLookup_some hl with ⟨hdmem, hdsrc, hdtgt⟩
    have hput : (add_edge g a b t).snd = putTransform g d t := by
      simp only [add_edge, hva, hvb, add_edge_vd, hl]
    have hF : (add_edge g a b t).fst.fst = d := by
      simp only [add_edge, hva, hvb, add_edge_vd, hl]
    have hcnt : countEdges g va vb = 1 := by
      have hpos : 0 < countEdges g va vb := by
        have hmem : d ∈ g.edgesL.filter (fun e => decide (e.src = va ∧ e.tgt = vb)) :=
          List.mem_filter.mpr ⟨hdmem, by simp [hdsrc, hdtgt]⟩
        exact List.length_pos.mpr (List.ne_nil_of_mem hmem)
      omega
    have hLab : ∀ l, lookupLabel (putTransform g d t) l = lookupLabel g l := by
      intro l; rfl
    refine ⟨?_, ?_, ⟨?_, ?_⟩, ?_, ?_⟩
    · rw [hput, hLab]; exact ha
    · rw [hput, hLab]; exact hb
    · rw [hput, eids_putTransform]; exact hids.1
    · intro e he
      rw [hput] at he
      rw [hput]
      show e.eid < g.nextEdgeId
      simp only [putTransform] at he
      rcases List.mem_map.mp he with ⟨e0, he0, rfl⟩
      have := hids.2 e0 he0
      by_cases h : e0.eid = d.eid <;> simp [h] <;> omega
    · rw [hput, countEdges_putTransform]; exact hcnt
    · rw [hput, hF]
      exact getTransform_putTransform g d d t rfl ⟨d, hdmem, rfl⟩

/-- Claim C1: when frames a and b both exist, addTransform(a,b,t1) followed
by addTransform(a,b,t2) leaves exactly one directed edge for the ordered
pair (a,b), and getTransform on the descriptor returned by the second call
yields t2 — the second add replaces the payload rather than failing or
creating a parallel edge. -/
theorem addTransform_replaces_payload (g : LabeledTransformTree) (a b : String)
    (va vb t1 t2 : Nat) (ha : lookupLabel g a = some va) (hb : lookupLabel g b = some vb)
    (hids : EdgeIdsOk g) (hpar : countEdges g va vb ≤ 1) :
    countEdges (add_edge (add_edge g a b t1).snd a b t2).snd va vb = 1 ∧
    getTransform (add_edge (add_edge g a b t1).snd a b t2).snd
        (add_edge (add_edge g a b t1).snd a b t2).fst.fst = some t2 := by
  obtain ⟨ha1, hb1, hids1, hcnt1, _⟩ := add_edge_post g a b va vb t1 ha hb hids hpar
  obtain ⟨_, _, _, hcnt2, hget2⟩ :=
    add_edge_post (add_edge g a b t1).snd a b va vb t2 ha1 hb1 hids1 (by omega)
  exact ⟨hcnt2, hget2⟩

/-- Witness for C1 on the concrete two-frame graph. -/
theorem addTransform_replaces_payload_witness :
    (lookupLabel c4Graph "A" = some 1 ∧ lookupLabel c4Graph "B" = some 2 ∧
       EdgeIdsOk c4Graph ∧ countEdges c4Graph 1 2 ≤ 1) ∧
      countEdges (add_edge (add_edge c4Graph "A" "B" 7).snd "A" "B" 9).snd 1 2 = 1 ∧
      getTransform (add_edge (add_edge c4Graph "A" "B" 7).snd "A" "B" 9).snd
          (add_edge (add_edge c4Graph "A" "B" 7).snd "A" "B" 9).fst.fst = some 9 :=
  ⟨⟨by decide, by decide, by decide, by decide⟩,
   addTransform_replaces_payload c4Graph "A" "B" 1 2 7 9 (by decide) (by decide)
     (by decide) (by decide)⟩

/-! ### TreeView: copy, move and destruction semantics (src/graph/TreeView.hpp)

The publisher is modelled as an optional identifier (the `publisher`
pointer, null as `none`); the boost signal `treeUpdated` is modelled by the
list of its connections (the signal itself is neither copyable nor movable,
which is why the C++ assigns around it). -/

/-- VertexRelation of a tree vertex: the parent descriptor (null_vertex for
the root) and the children. -/
structure VertexRelation where
  parent : Nat
  children : List Nat
  deriving DecidableEq, Repr

/-- The observable state of a TreeView object. -/
structure TreeView where
  publisher : Option Nat
  tree : List (Nat × VertexRelation)
  crossEdges : List Nat
  treeUpdatedConns : List Nat
  deriving DecidableEq, Repr

/-- A default-constructed TreeView: no publisher, empty containers. -/
def defaultTreeView : TreeView :=
  { publisher := none, tree := [], crossEdges := [], treeUpdatedConns := [] }

/-- TreeView::operator=(const TreeView&): copies publisher, tree and
crossEdges; the treeUpdated signal cannot be copied and keeps the target's
own connections. -/
def copyAssign (target other : TreeView) : TreeView :=
  { publisher := other.publisher
    tree := other.tree
    crossEdges := other.crossEdges
    treeUpdatedConns := target.treeUpdatedConns }

/-- TreeView::TreeView(const TreeView&): default-construct, then operator=. -/
def copyConstruct (other : TreeView) : TreeView :=
  copyAssign defaultTreeView other

/-- A call made against a TreeUpdatePublisher, tagged with which object of a
move (source or destination) it concerns. -/
inductive PubTarget where
  | sourceView
  | destView
  deriving DecidableEq, Repr

/-- The subscription calls a TreeView operation can perform on a
TreeUpdatePublisher. -/
inductive PubCall where
  | unsubscribeCall (pub : Nat) (who : PubTarget)
  | subscribeCall (pub : Nat) (who : PubTarget)
  deriving DecidableEq, Repr

/-- Outcome of the TreeView move constructor: the destination object, the
moved-from source object, and the publisher calls in the order performed. -/
structure MoveResult where
  dest : TreeView
  source : TreeView
  calls : List PubCall
  deriving DecidableEq, Repr

/-- TreeView::TreeView(TreeView&&): steals tree and crossEdges; when the
source was subscribed, first unsubscribes the source, then subscribes the
destination (the subscribe callback sets the destination's publisher, per
the in-source comment), then nulls the source's publisher; finally swaps
the treeUpdated signal state with the default-initialised destination. -/
def moveConstruct (other : TreeView) : MoveResult :=
  match other.publisher with
  | some p =>
    { dest := { publisher := some p, tree := other.tree, crossEdges := other.crossEdges,
                treeUpdatedConns := other.treeUpdatedConns }
      source := { publisher := none, tree := [], crossEdges := [], treeUpdatedConns := [] }
      calls := [PubCall.unsubscribeCall p PubTarget.sourceView,
                PubCall.subscribeCall p PubTarget.destView] }
  | none =>
    { dest := { publisher := none, tree := other.tree, crossEdges := other.crossEdges,
                treeUpdatedConns := other.treeUpdatedConns }
      source := { publisher := none, tree := [], crossEdges := [], treeUpdatedConns := [] }
      calls := [] }

/-- TreeView::~TreeView(): when a publisher is set, unsubscribes from it and
nulls the pointer. Returns the publisher on which unsubscribeTreeView was
invoked (none when no call was made) together with the final state. -/
def destructorEffect (tv : TreeView) : Option Nat × TreeView :=
  match tv.publisher with
  | some p => (some p, { tv with publisher := none })
  | none => (none, tv)

/-- A concrete subscribed TreeView used in the C5 counterexample. -/
def c5View : TreeView :=
  { publisher := some 7, tree := [(1, ⟨0, [2]⟩)], crossEdges := [5], treeUpdatedConns := [9] }

/-- Claim C5, counterexample: copying a subscribed TreeView is not a
detached snapshot — operator= copies the publisher pointer, so the copy of
a TreeView subscribed to publisher 7 also holds publisher 7 and its
destructor calls unsubscribeTreeView on that publisher. -/
theorem treeview_copy_counterexample :
    ¬ ((copyConstruct c5View).publisher = none ∧
        (destructorEffect (copyConstruct c5View)).fst = none) := by
  decide

/-- Claim C5, amended: copy construction and copy assignment copy tree,
crossEdges and the publisher pointer; only the treeUpdated signal
connections are not transferred (a copy-constructed view starts with no
connections, an assigned-to view keeps its own). Consequently a copy of a
subscribed TreeView, although never registered by the copy itself, does
invoke unsubscribeTreeView on the original's publisher when destroyed. -/
theorem treeview_copy_spec (tv target : TreeView) :
    (copyConstruct tv).publisher = tv.publisher ∧
    (copyConstruct tv).tree = tv.tree ∧
    (copyConstruct tv).crossEdges = tv.crossEdges ∧
    (copyConstruct tv).treeUpdatedConns = [] ∧
    (copyAssign target tv).publisher = tv.publisher ∧
    (copyAssign target tv).tree = tv.tree ∧
    (copyAssign target tv).crossEdges = tv.crossEdges ∧
    (copyAssign target tv).treeUpdatedConns = target.treeUpdatedConns ∧
    (destructorEffect (copyConstruct tv)).fst = tv.publisher := by
  cases hp : tv.publisher <;>
    simp [copyConstruct, copyAssign, defaultTreeView, destructorEffect, hp]

/-- Claim C6: a live TreeView holds at most one publisher registration (a
single optional pointer); moving a subscribed TreeView performs exactly
unsubscribe(source) followed by subscribe(destination), leaves the
destination as the registered subscriber of the same publisher and the
source fully detached (so the moved-from destructor performs no publisher
call), and destroying a still-subscribed TreeView unsubscribes it and
clears the pointer. -/
theorem treeview_move_destroy_lifetime (tv : TreeView) (p : Nat)
    (h : tv.publisher = some p) :
    (moveConstruct tv).calls
        = [PubCall.unsubscribeCall p PubTarget.sourceView,
           PubCall.subscribeCall p PubTarget.destView] ∧
    (moveConstruct tv).dest.publisher = some p ∧
    (moveConstruct tv).source.publisher = none ∧
    (moveConstruct tv).dest.tree = tv.tree ∧
    (moveConstruct tv).dest.crossEdges = tv.crossEdges ∧
    (destructorEffect (moveConstruct tv).source).fst = none ∧
    (destructorEffect tv).fst = some p ∧
    (destructorEffect tv).snd.publisher = none := by
  simp [moveConstruct, destructorEffect, h]

/-- Witness for C6 at the concrete subscribed view. -/
theorem treeview_move_destroy_lifetime_witness :
    c5View.publisher = some 7 ∧ (moveConstruct c5View).dest.publisher = some 7 :=
  ⟨by decide, (treeview_move_destroy_lifetime c5View 7 (by decide)).2.1⟩

/-- TreeView::isRoot: looks the descriptor up in the tree map with
unordered_map::at — out of range when absent, modelled as `none` — and
compares the stored parent against null_vertex(). -/
def isRoot (tv : TreeView) (vd : Nat) : Option Bool :=
  (tv.tree.find? (fun q => q.fst == vd)).map (fun q => decide (q.snd.parent = null_vertex))

/-- Claim C10: with unique tree keys, isRoot(vd) yields true exactly when vd
is a key of the tree map whose stored parent is the null-vertex sentinel,
and for a descriptor that is not a key it does not return any boolean (the
unguarded map lookup raises out-of-range, modelled as none) rather than
returning false. -/
theorem isRoot_spec (tv : TreeView) (vd : Nat)
    (hnd : (tv.tree.map Prod.fst).Nodup) :
    (isRoot tv vd = some true ↔
       ∃ rel, (vd, rel) ∈ tv.tree ∧ rel.parent = null_vertex) ∧
    (isRoot tv vd = none ↔ ∀ rel, ¬ (vd, rel) ∈ tv.tree) := by
  constructor
  · constructor
    · intro h
      rcases hf : tv.tree.find? (fun q => q.fst == vd) with _ | q
      · rw [isRoot, hf] at h; simp at h
      · have hq := List.find?_some hf
        have hqm := List.mem_of_find?_eq_some hf
        simp only [beq_iff_eq] at hq
        rw [isRoot, hf] at h
        simp only [Option.map_some', Option.some_inj, decide_eq_true_eq] at h
        exact ⟨q.snd, by rw [← hq]; exact hqm, h⟩
    · rintro ⟨rel, hmem, hpar⟩
      have hf : tv.tree.find? (fun q => q.fst == vd) = some (vd, rel) := by
        rcases hf0 : tv.tree.find? (fun q => q.fst == vd) with _ | q
        · exact absurd (List.find?_eq_none.mp hf0 (vd, rel) hmem) (by simp)
        · have hq := List.find?_some hf0
          have hqm := List.mem_of_find?_eq_some hf0
          simp only [beq_iff_eq] at hq
          have : q = (vd, rel) := by
            have h1 : q.fst = (vd, rel).fst := by simpa using hq
            have h2 := List.inj_on_of_nodup_map hnd
            have := h2 hqm hmem h1
            exact this
          rw [← this]
          exact hf0
      rw [isRoot, hf]
      simp [hpar]
  · constructor
    · intro h rel hmem
      rcases hf : tv.tree.find? (fun q => q.fst == vd) with _ | q
      · exact absurd (List.find?_eq_none.mp hf (vd, rel) hmem) (by simp)
      · rw [isRoot, hf] at h; simp at h
    · intro h
      have hf : tv.tree.find? (fun q => q.fst == vd) = none := by
        apply List.find?_eq_none.mpr
        intro q hq
        simp only [beq_iff_eq]
        intro hfst
        exact h q.snd (by rw [← hfst]; exact hq)
      rw [isRoot, hf]
      rfl

/-- Witness for C10 at a concrete TreeView with a root and a child. -/
theorem isRoot_spec_witness :
    ((([(1, ⟨0, [2]⟩), (2, ⟨1, []⟩)] : List (Nat × VertexRelation)).map Prod.fst).Nodup) ∧
      (isRoot ⟨none, [(1, ⟨0, [2]⟩), (2, ⟨1, []⟩)], [], []⟩ 3 = none ↔
        ∀ rel, ¬ (3, rel) ∈ ([(1, ⟨0, [2]⟩), (2, ⟨1, []⟩)] : List (Nat × VertexRelation))) :=
  ⟨by decide,
   (isRoot_spec ⟨none, [(1, ⟨0, [2]⟩), (2, ⟨1, []⟩)], [], []⟩ 3 (by decide)).2⟩

/-! ### TreeView construction (breadth-first traversal)

Modelled from the spec: the BFS TreeView builder itself is not among these
sources — only the TreeView containers and the crossEdges documentation are
(src/graph/TreeView.hpp, src/graph/TransformGraphTypes.hpp). The traversal
below follows spec §4.2: start from the root, process vertices in FIFO
order, treat every incident edge as undirected connectivity, turn edges to
unvisited neighbours into tree edges, and record non-tree edges in
crossEdges. The recording discipline follows the in-source crossEdges
comment: an edge is recorded when it leads to an already *discovered*
vertex, and is not recorded again when it leads to an already *finished*
(fully processed) vertex — the classic gray/black target distinction of a
boost breadth_first_search visitor. Each examination is also logged with
the facts observed at that moment (was the neighbour already discovered,
was the edge the one used to reach the examining vertex from its parent),
so that per-step claims can be stated about the final result. -/

/-- The endpoint of e other than u (for the undirected view of the edge). -/
def otherEnd (e : GEdge) (u : Nat) : Nat :=
  if e.src = u then e.tgt else e.src

/-- All edges incident to u, in the graph's deterministic storage order. -/
def incidentEdges (g : List GEdge) (u : Nat) : List GEdge :=
  g.filter (fun e => e.src == u || e.tgt == u)

/-- One parent link of the tree under construction: child was discovered
from parent through viaEdge. -/
structure TreeEntry where
  child : Nat
  parent : Nat
  viaEdge : GEdge
  deriving DecidableEq, Repr

/-- The log record of one edge examination: which vertex examined which
edge, whether the neighbour was already discovered at that moment, and
whether the edge was the one used to reach the examiner from its parent. -/
structure Exam where
  examiner : Nat
  edge : GEdge
  targetDiscovered : Bool
  wasReachEdge : Bool
  deriving DecidableEq, Repr

/-- The traversal state: tree under construction, discovered (gray+black)
vertices, finished (black) vertices, FIFO queue, crossEdges, exam log. -/
structure BfsState where
  tree : List TreeEntry
  discovered : List Nat
  finished : List Nat
  queue : List Nat
  cross : List GEdge
  exams : List Exam
  deriving DecidableEq, Repr

/-- The edge through which u was discovered from its parent, if any. -/
def reachEdge (tree : List TreeEntry) (u : Nat) : Option GEdge :=
  (tree.find? (fun t => t.child == u)).map TreeEntry.viaEdge

/-- Examination of one incident edge of u: an unvisited neighbour becomes a
child (tree edge) and is enqueued; an already discovered but unfinished
neighbour makes the edge a cross edge; an edge to a finished neighbour is
not recorded again (it is either the reach edge of u or a cross edge
already recorded from the other side). -/
def processEdge (u : Nat) (s : BfsState) (e : GEdge) : BfsState :=
  let w := otherEnd e u
  if w ∈ s.discovered then
    let ex : Exam := ⟨u, e, true, decide (reachEdge s.tree u = some e)⟩
    if w ∈ s.finished then
      { s with exams := s.exams ++ [ex] }
    else
      { s with cross := s.cross ++ [e], exams := s.exams ++ [ex] }
  else
    { s with tree := s.tree ++ [⟨w, u, e⟩]
             discovered := w :: s.discovered
             queue := s.queue ++ [w]
             exams := s.exams ++ [⟨u, e, false, decide (reachEdge s.tree u = some e)⟩] }

/-- Process one dequeued vertex: examine all its incident edges in order,
then mark it finished. -/
def processVertex (g : List GEdge) (u : Nat) (s : BfsState) : BfsState :=
  let s1 := (incidentEdges g u).foldl (processEdge u) s
  { s1 with finished := u :: s1.finished }

/-- The FIFO traversal loop (fuel-indexed; the fuel used by buildTreeView
is enough to drain the queue). -/
def bfsRun (g : List GEdge) : Nat → BfsState → BfsState
  | 0, s => s
  | fuel + 1, s =>
    match s.queue with
    | [] => s
    | u :: rest => bfsRun g fuel (processVertex g u { s with queue := rest })

/-- Initial state: the root is discovered and queued, with no parent. -/
def initState (r : Nat) : BfsState :=
  { tree := [], discovered := [r], finished := [], queue := [r], cross := [], exams := [] }

/-- Build the TreeView of g from root r. -/
def buildTreeView (g : List GEdge) (r : Nat) : BfsState :=
  bfsRun g (2 * g.length + 2) (initState r)

/-! #### Invariants of the traversal -/

/-- Every logged examination that found its neighbour already discovered
and was not the examiner's reach edge has its edge in crossEdges, not used
by any tree entry, and with both endpoints discovered. -/
def FlaggedOk (s : BfsState) : Prop :=
  ∀ ex ∈ s.exams, ex.targetDiscovered = true → ex.wasReachEdge = false →
    ex.edge ∈ s.cross ∧ (∀ t ∈ s.tree, ¬ t.viaEdge = ex.edge) ∧
    ex.edge.src ∈ s.discovered ∧ ex.edge.tgt ∈ s.discovered

/-- Tree entries are well formed: each child is discovered, is the far
endpoint of its via edge from the parent, and the via edge is incident to
the parent; children are pairwise distinct. -/
def TreeOk (s : BfsState) : Prop :=
  (∀ t ∈ s.tree, t.child ∈ s.discovered ∧ t.child = otherEnd t.viaEdge t.parent ∧
     (t.viaEdge.src = t.parent ∨ t.viaEdge.tgt = t.parent)) ∧
  (s.tree.map TreeEntry.child).Nodup

/-- Every tree entry was created by a logged examination of its parent. -/
def TreeExamLink (s : BfsState) : Prop :=
  ∀ t ∈ s.tree, ∃ ex ∈ s.exams, ex.examiner = t.parent ∧ ex.edge = t.viaEdge

/-- At step boundaries every logged examiner is already finished. -/
def ExamsFinished (s : BfsState) : Prop :=
  ∀ ex ∈ s.exams, ex.examiner ∈ s.finished

/-- The queue holds pairwise distinct, discovered, unfinished vertices, and
finished vertices are discovered. -/
def QueueOk (s : BfsState) : Prop :=
  s.queue.Nodup ∧ (∀ v ∈ s.queue, v ∈ s.discovered ∧ ¬ v ∈ s.finished) ∧
  (∀ v ∈ s.finished, v ∈ s.discovered)

/-- Every graph edge with a finished endpoint is accounted for: it is a
cross edge or a tree edge. -/
def CoveredOk (g : List GEdge) (s : BfsState) : Prop :=
  ∀ e ∈ g, (e.src ∈ s.finished ∨ e.tgt ∈ s.finished) →
    e ∈ s.cross ∨ ∃ t ∈ s.tree, t.viaEdge = e

/-- The conjunction holding at every step boundary of the traversal. -/
def Inv (g : List GEdge) (s : BfsState) : Prop :=
  FlaggedOk s ∧ TreeOk s ∧ TreeExamLink s ∧ ExamsFinished s ∧ QueueOk s ∧ CoveredOk g s

/-- The invariant that holds while the incident edges of the dequeued
vertex u are being folded over. -/
def FoldInv (g : List GEdge) (u : Nat) (s : BfsState) : Prop :=
  FlaggedOk s ∧ TreeOk s ∧ TreeExamLink s ∧ QueueOk s ∧ CoveredOk g s ∧
  u ∈ s.discovered ∧ ¬ u ∈ s.finished ∧ ¬ u ∈ s.queue ∧
  (∀ ex ∈ s.exams, ex.examiner ∈ s.finished ∨ ex.examiner = u)

theorem otherEnd_cases (e : GEdge) (u : Nat) (hinc : e.src = u ∨ e.tgt = u) :
    (e.src = u ∧ e.tgt = otherEnd e u) ∨ (e.tgt = u ∧ e.src = otherEnd e u) := by
  rcases hinc with h | h
  · left; exact ⟨h, by simp [otherEnd, h]⟩
  · by_cases hs : e.src = u
    · left; exact ⟨hs, by simp [otherEnd, hs]⟩
    · right; exact ⟨h, by simp [otherEnd, hs]⟩

theorem otherEnd_flip (e : GEdge) (u : Nat) (hinc : e.src = u ∨ e.tgt = u) :
    otherEnd e (otherEnd e u) = u := by
  by_cases hs : e.src = u
  · have h1 : otherEnd e u = e.tgt := by rw [otherEnd, if_pos hs]
    rw [h1, otherEnd]
    by_cases hst : e.src = e.tgt
    · rw [if_pos hst, ← hst]; exact hs
    · rw [if_neg hst]; exact hs
  · have ht : e.tgt = u := hinc.resolve_left hs
    have h1 : otherEnd e u = e.src := by rw [otherEnd, if_neg hs]
    rw [h1, otherEnd, if_pos rfl]
    exact ht

theorem reachEdge_of_mem (tree : List TreeEntry) (u : Nat) (t : TreeEntry)
    (hnd : (tree.map TreeEntry.child).Nodup) (ht : t ∈ tree) (hc : t.child = u) :
    reachEdge tree u = some t.viaEdge := by
  induction tree with
  | nil => cases ht
  | cons t0 rest ih =>
    rcases List.mem_cons.mp ht with rfl | hmem
    · rw [reachEdge, List.find?_cons_of_pos _ (by simp [hc])]
      rfl
    · have hnd' : (rest.map TreeEntry.child).Nodup := (List.nodup_cons.mp hnd).2
      have h0 : ¬ t0.child = u := by
        intro h0
        have : t.child ∈ rest.map TreeEntry.child := List.mem_map_of_mem _ hmem
        rw [hc, ← h0] at this
        exact (List.nodup_cons.mp hnd).1 this
      have := ih hnd' hmem
      rw [reachEdge, List.find?_cons_of_neg _ (by simp [h0])]
      exact this

theorem otherEnd_mem_endpoints (e : GEdge) (u : Nat) :
    otherEnd e u = e.src ∨ otherEnd e u = e.tgt := by
  by_cases h : e.src = u
  · right; rw [otherEnd, if_pos h]
  · left; rw [otherEnd, if_neg h]

/-- If an edge incident to u is examined while it is not u's reach edge and
no tree entry with parent u uses it, then no tree entry at all uses it: a
via-edge connects parent and child, the parent is one of the edge's two
endpoints, and the far-endpoint parent case would make the edge exactly u's
reach edge. -/
theorem no_treeVia_of_exam (s : BfsState) (u : Nat) (e : GEdge)
    (hTr : TreeOk s) (hinc : e.src = u ∨ e.tgt = u)
    (hre : ¬ reachEdge s.tree u = some e)
    (hnotree : ∀ t ∈ s.tree, ¬ (t.parent = u ∧ t.viaEdge = e)) :
    ∀ t ∈ s.tree, ¬ t.viaEdge = e := by
  intro t ht hvia
  rcases hTr.1 t ht with ⟨_, hchild, hpinc⟩
  rw [hvia] at hchild hpinc
  by_cases hpu : t.parent = u
  · exact hnotree t ht ⟨hpu, hvia⟩
  · have hpw : t.parent = otherEnd e u := by
      rcases otherEnd_cases e u hinc with ⟨h1, h2⟩ | ⟨h1, h2⟩ <;>
        rcases hpinc with hp | hp <;> omega
    have hcu : t.child = u := by
      rw [hchild, hpw, otherEnd_flip e u hinc]
    exact hre (by rw [reachEdge_of_mem s.tree u t hTr.2 ht hcu, hvia])

/-- One edge examination preserves the fold invariant and is monotone on
cross, tree and discovered; the examined edge ends up covered (cross or
tree), the finished set is untouched, and any new tree entry has parent u
via this very edge. -/
theorem processEdge_step (g : List GEdge) (u : Nat) (s : BfsState) (e : GEdge)
    (hinv : FoldInv g u s) (heg : e ∈ g) (hinc : e.src = u ∨ e.tgt = u)
    (hnotree : ∀ t ∈ s.tree, ¬ (t.parent = u ∧ t.viaEdge = e)) :
    FoldInv g u (processEdge u s e) ∧
    (processEdge u s e).finished = s.finished ∧
    (∀ e' ∈ s.cross, e' ∈ (processEdge u s e).cross) ∧
    (∀ t ∈ s.tree, t ∈ (processEdge u s e).tree) ∧
    (∀ t ∈ (processEdge u s e).tree, t ∈ s.tree ∨ (t.parent = u ∧ t.viaEdge = e)) ∧
    (e ∈ (processEdge u s e).cross ∨ ∃ t ∈ (processEdge u s e).tree, t.viaEdge = e) ∧
    (∀ v ∈ s.discovered, v ∈ (processEdge u s e).discovered) := by
  obtain ⟨hFl, hTr, hTE, hQ, hCov, huD, huF, huQ, hEx⟩ := hinv
  have hends : (e.src = u ∨ e.src = otherEnd e u) ∧ (e.tgt = u ∨ e.tgt = otherEnd e u) := by
    rcases otherEnd_cases e u hinc with ⟨h1, h2⟩ | ⟨h1, h2⟩
    · exact ⟨Or.inl h1, Or.inr h2⟩
    · exact ⟨Or.inr h2, Or.inl h1⟩
  by_cases hw : otherEnd e u ∈ s.discovered
  · have hnoVia : ¬ reachEdge s.tree u = some e → ∀ t ∈ s.tree, ¬ t.viaEdge = e :=
      fun hre => no_treeVia_of_exam s u e hTr hinc hre hnotree
    by_cases hf : otherEnd e u ∈ s.finished
    · -- finished (black) target: only the exam is logged
      have heq : processEdge u s e
          = { s with exams := s.exams ++ [⟨u, e, true, decide (reachEdge s.tree u = some e)⟩] } := by
        simp only [processEdge]
        rw [if_pos hw, if_pos hf]
      have hcovE : e ∈ s.cross ∨ ∃ t ∈ s.tree, t.viaEdge = e := by
        apply hCov e heg
        rcases otherEnd_cases e u hinc with ⟨h1, h2⟩ | ⟨h1, h2⟩
        · right; rw [h2]; exact hf
        · left; rw [h2]; exact hf
      rw [heq]
      refine ⟨⟨?_, hTr, ?_, hQ, hCov, huD, huF, huQ, ?_⟩, rfl, ?_, ?_, ?_, ?_, ?_⟩
      · intro ex hex h1 h2
        rcases List.mem_append.mp hex with hold | hnew
        · exact hFl ex hold h1 h2
        · simp only [List.mem_singleton] at hnew
          subst hnew
          have hre : ¬ reachEdge s.tree u = some e := of_decide_eq_false h2
          have hnv := hnoVia hre
          have hcr : e ∈ s.cross := by
            rcases hcovE with h | ⟨t, ht, hvia⟩
            · exact h
            · exact absurd hvia (hnv t ht)
          refine ⟨hcr, hnv, ?_, ?_⟩
          · rcases hends.1 with h | h
            · rw [h]; exact huD
            · rw [h]; exact hw
          · rcases hends.2 with h | h
            · rw [h]; exact huD
            · rw [h]; exact hw
      · intro t ht
        rcases hTE t ht with ⟨ex, hex, hp⟩
        exact ⟨ex, List.mem_append_left _ hex, hp⟩
      · intro ex hex
        rcases List.mem_append.mp hex with hold | hnew
        · exact hEx ex hold
        · simp only [List.mem_singleton] at hnew
          subst hnew
          exact Or.inr rfl
      · exact fun e' he' => he'
      · exact fun t ht => ht
      · exact fun t ht => Or.inl ht
      · exact hcovE
      · exact fun v hv => hv
    · -- discovered but unfinished (gray) target: record a cross edge
      have heq : processEdge u s e
          = { s with cross := s.cross ++ [e],
                     exams := s.exams ++ [⟨u, e, true, decide (reachEdge s.tree u = some e)⟩] } := by
        simp only [processEdge]
        rw [if_pos hw, if_neg hf]
      rw [heq]
      refine ⟨⟨?_, hTr, ?_, hQ, ?_, huD, huF, huQ, ?_⟩, rfl, ?_, ?_, ?_, ?_, ?_⟩
      · intro ex hex h1 h2
        rcases List.mem_append.mp hex with hold | hnew
        · obtain ⟨hc, hnv, hd1, hd2⟩ := hFl ex hold h1 h2
          exact ⟨List.mem_append_left _ hc, hnv, hd1, hd2⟩
        · simp only [List.mem_singleton] at hnew
          subst hnew
          have hre : ¬ reachEdge s.tree u = some e := of_decide_eq_false h2
          refine ⟨List.mem_append_right _ (by simp), hnoVia hre, ?_, ?_⟩
          · rcases hends.1 with h | h
            · rw [h]; exact huD
            · rw [h]; exact hw
          · rcases hends.2 with h | h
            · rw [h]; exact huD
            · rw [h]; exact hw
      · intro t ht
        rcases hTE t ht with ⟨ex, hex, hp⟩
        exact ⟨ex, List.mem_append_left _ hex, hp⟩
      · intro e' he' hfe'
        rcases hCov e' he' hfe' with h | h
        · exact Or.inl (List.mem_append_left _ h)
        · exact Or.inr h
      · intro ex hex
        rcases List.mem_append.mp hex with hold | hnew
        · exact hEx ex hold
        · simp only [List.mem_singleton] at hnew
          subst hnew
          exact Or.inr rfl
      · exact fun e' he' => List.mem_append_left _ he'
      · exact fun t ht => ht
      · exact fun t ht => Or.inl ht
      · exact Or.inl (List.mem_append_right _ (by simp))
      · exact fun v hv => hv
  · -- white neighbour: tree edge, discover and enqueue
    have heq : processEdge u s e
        = { s with tree := s.tree ++ [⟨otherEnd e u, u, e⟩],
                   discovered := otherEnd e u :: s.discovered,
                   queue := s.queue ++ [otherEnd e u],
                   exams := s.exams ++ [⟨u, e, false, decide (reachEdge s.tree u = some e)⟩] } := by
      simp only [processEdge]
      rw [if_neg hw]
    rw [heq]
    refine ⟨⟨?_, ⟨?_, ?_⟩, ?_, ⟨?_, ?_, ?_⟩, ?_, List.mem_cons_of_mem _ huD, huF, ?_, ?_⟩,
      rfl, ?_, ?_, ?_, ?_, ?_⟩
    · -- FlaggedOk
      intro ex hex h1 h2
      rcases List.mem_append.mp hex with hold | hnew
      · obtain ⟨hc, hnv, hd1, hd2⟩ := hFl ex hold h1 h2
        refine ⟨hc, ?_, List.mem_cons_of_mem _ hd1, List.mem_cons_of_mem _ hd2⟩
        intro t ht
        rcases List.mem_append.mp ht with ht0 | htn
        · exact hnv t ht0
        · simp only [List.mem_singleton] at htn
          subst htn
          intro hee
          have hee' : e = ex.edge := hee
          apply hw
          rcases otherEnd_mem_endpoints e u with h | h
          · rw [h, hee']; exact hd1
          · rw [h, hee']; exact hd2
      · simp only [List.mem_singleton] at hnew
        subst hnew
        exact (Bool.false_ne_true h1).elim
    · -- TreeOk.1
      intro t ht
      rcases List.mem_append.mp ht with ht0 | htn
      · obtain ⟨hcd, hco, hpi⟩ := hTr.1 t ht0
        exact ⟨List.mem_cons_of_mem _ hcd, hco, hpi⟩
      · simp only [List.mem_singleton] at htn
        subst htn
        exact ⟨List.mem_cons_self _ _, rfl, hinc⟩
    · -- TreeOk.2: children stay pairwise distinct
      rw [List.map_append]
      simp only [List.map_cons, List.map_nil]
      rw [List.nodup_append]
      refine ⟨hTr.2, List.nodup_singleton _, ?_⟩
      intro x hx hx1
      simp only [List.mem_singleton] at hx1
      subst hx1
      rcases List.mem_map.mp hx with ⟨t, ht, hchild⟩
      exact hw (hchild ▸ (hTr.1 t ht).1)
    · -- TreeExamLink
      intro t ht
      rcases List.mem_append.mp ht with ht0 | htn
      · rcases hTE t ht0 with ⟨ex, hex, hp⟩
        exact ⟨ex, List.mem_append_left _ hex, hp⟩
      · simp only [List.mem_singleton] at htn
        subst htn
        exact ⟨⟨u, e, false, decide (reachEdge s.tree u = some e)⟩,
               List.mem_append_right _ (by simp), rfl, rfl⟩
    · -- QueueOk.1
      rw [List.nodup_append]
      refine ⟨hQ.1, List.nodup_singleton _, ?_⟩
      intro x hx hx1
      simp only [List.mem_singleton] at hx1
      subst hx1
      exact hw (hQ.2.1 _ hx).1
    · -- QueueOk.2
      intro v hv
      rcases List.mem_append.mp hv with h | h
      · exact ⟨List.mem_cons_of_mem _ (hQ.2.1 v h).1, (hQ.2.1 v h).2⟩
      · simp only [List.mem_singleton] at h
        subst h
        exact ⟨List.mem_cons_self _ _, fun hfin => hw (hQ.2.2 _ hfin)⟩
    · -- QueueOk.3
      intro v hv
      exact List.mem_cons_of_mem _ (hQ.2.2 v hv)
    · -- CoveredOk
      intro e' he' hfe'
      rcases hCov e' he' hfe' with h | ⟨t, ht, hvia⟩
      · exact Or.inl h
      · exact Or.inr ⟨t, List.mem_append_left _ ht, hvia⟩
    · -- u not in the grown queue
      intro h
      rcases List.mem_append.mp h with h0 | h0
      · exact huQ h0
      · simp only [List.mem_singleton] at h0
        apply hw
        rw [← h0]
        exact huD
    · -- exams-by
      intro ex hex
      rcases List.mem_append.mp hex with hold | hnew
      · exact hEx ex hold
      · simp only [List.mem_singleton] at hnew
        subst hnew
        exact Or.inr rfl
    · exact fun e' he' => he'
    · exact fun t ht => List.mem_append_left _ ht
    · intro t ht
      rcases List.mem_append.mp ht with h | h
      · exact Or.inl h
      · simp only [List.mem_singleton] at h
        subst h
        exact Or.inr ⟨rfl, rfl⟩
    · exact Or.inr ⟨⟨otherEnd e u, u, e⟩, List.mem_append_right _ (by simp), rfl⟩
    · exact fun v hv => List.mem_cons_of_mem _ hv

/-- Folding over the incident edges of the dequeued vertex preserves the
fold invariant, keeps the finished set, grows cross and tree monotonically,
covers every folded edge, and only discovers more vertices. -/
theorem foldl_processEdge (g : List GEdge) (u : Nat) :
    ∀ (es : List GEdge) (s : BfsState),
      es.Nodup → (∀ e ∈ es, e ∈ g ∧ (e.src = u ∨ e.tgt = u)) →
      (∀ e ∈ es, ∀ t ∈ s.tree, ¬ (t.parent = u ∧ t.viaEdge = e)) →
      FoldInv g u s →
      FoldInv g u (es.foldl (processEdge u) s) ∧
      (es.foldl (processEdge u) s).finished = s.finished ∧
      (∀ e' ∈ s.cross, e' ∈ (es.foldl (processEdge u) s).cross) ∧
      (∀ t ∈ s.tree, t ∈ (es.foldl (processEdge u) s).tree) ∧
      (∀ e ∈ es, e ∈ (es.foldl (processEdge u) s).cross ∨
         ∃ t ∈ (es.foldl (processEdge u) s).tree, t.viaEdge = e) ∧
      (∀ v ∈ s.discovered, v ∈ (es.foldl (processEdge u) s).discovered) := by
  intro es
  induction es with
  | nil =>
    intro s _ _ _ hinv
    exact ⟨hinv, rfl, fun e' he' => he', fun t ht => ht,
           fun e he => absurd he (List.not_mem_nil e), fun v hv => hv⟩
  | cons e es' ih =>
    intro s hnd hprops hnotree hinv
    obtain ⟨hndE, hndT⟩ := List.nodup_cons.mp hnd
    have hpe := hprops e (List.mem_cons_self e es')
    obtain ⟨hstep, hfin1, hcr1, htr1, hne1, hcov1, hdi1⟩ :=
      processEdge_step g u s e hinv hpe.1 hpe.2
        (fun t ht => hnotree e (List.mem_cons_self e es') t ht)
    have hnotree' : ∀ e' ∈ es', ∀ t ∈ (processEdge u s e).tree,
        ¬ (t.parent = u ∧ t.viaEdge = e') := by
      intro e' he' t ht hcontra
      rcases hne1 t ht with hold | ⟨_, hv⟩
      · exact hnotree e' (List.mem_cons_of_mem _ he') t hold hcontra
      · apply hndE
        rw [show e = e' from by rw [← hv, hcontra.2]]
        exact he'
    have hprops' : ∀ e' ∈ es', e' ∈ g ∧ (e'.src = u ∨ e'.tgt = u) :=
      fun e' he' => hprops e' (List.mem_cons_of_mem _ he')
    obtain ⟨hinvF, hfinF, hcrF, htrF, hcovF, hdiF⟩ :=
      ih (processEdge u s e) hndT hprops' hnotree' hstep
    rw [List.foldl_cons]
    refine ⟨hinvF, ?_, ?_, ?_, ?_, ?_⟩
    · rw [hfinF, hfin1]
    · exact fun e' he' => hcrF e' (hcr1 e' he')
    · exact fun t ht => htrF t (htr1 t ht)
    · intro e0 he0
      rcases List.mem_cons.mp he0 with rfl | hmem
      · rcases hcov1 with h | ⟨t, ht, hvia⟩
        · exact Or.inl (hcrF _ h)
        · exact Or.inr ⟨t, htrF t ht, hvia⟩
      · exact hcovF e0 hmem
    · exact fun v hv => hdiF v (hdi1 v hv)

/-- The traversal invariant holds initially. -/
theorem inv_init (g : List GEdge) (r : Nat) : Inv g (initState r) := by
  refine ⟨?_, ⟨?_, ?_⟩, ?_, ?_, ⟨?_, ?_, ?_⟩, ?_⟩ <;>
    simp [FlaggedOk, TreeOk, TreeExamLink, ExamsFinished, QueueOk, CoveredOk, initState]

/-- The traversal invariant is preserved by any number of steps. -/
theorem bfsRun_inv (g : List GEdge) (hg : g.Nodup) :
    ∀ (fuel : Nat) (s : BfsState), Inv g s → Inv g (bfsRun g fuel s) := by
  intro fuel
  induction fuel with
  | zero => intro s hinv; exact hinv
  | succ fuel ih =>
    intro s hinv
    obtain ⟨hFl, hTr, hTE, hEF, hQ, hCov⟩ := hinv
    rcases hq : s.queue with _ | ⟨u, rest⟩
    · simp only [bfsRun, hq]
      exact ⟨hFl, hTr, hTE, hEF, hQ, hCov⟩
    · have hqu := hQ.2.1 u (by rw [hq]; exact List.mem_cons_self u rest)
      have hund : (u :: rest).Nodup := by rw [← hq]; exact hQ.1
      have hfold_inv : FoldInv g u { s with queue := rest } := by
        refine ⟨hFl, hTr, hTE, ⟨?_, ?_, ?_⟩, hCov, hqu.1, hqu.2, ?_, ?_⟩
        · exact (List.nodup_cons.mp hund).2
        · intro v hv
          exact hQ.2.1 v (by rw [hq]; exact List.mem_cons_of_mem _ hv)
        · exact hQ.2.2
        · exact (List.nodup_cons.mp hund).1
        · intro ex hex
          exact Or.inl (hEF ex hex)
      have hnotree0 : ∀ e ∈ incidentEdges g u, ∀ t ∈ ({ s with queue := rest } : BfsState).tree,
          ¬ (t.parent = u ∧ t.viaEdge = e) := by
        intro e _ t ht hcontra
        rcases hTE t ht with ⟨ex, hex, hp1, _⟩
        have hfin := hEF ex hex
        rw [hp1, hcontra.1] at hfin
        exact hqu.2 hfin
      have hesub : ∀ e ∈ incidentEdges g u, e ∈ g ∧ (e.src = u ∨ e.tgt = u) := by
        intro e he
        have hm := List.mem_filter.mp he
        refine ⟨hm.1, ?_⟩
        have h2 := hm.2
        simp only [Bool.or_eq_true, beq_iff_eq] at h2
        exact h2
      have hndI : (incidentEdges g u).Nodup := List.Nodup.filter _ hg
      obtain ⟨hinvF, hfinF, _, _, hcovF, _⟩ :=
        foldl_processEdge g u (incidentEdges g u) { s with queue := rest }
          hndI hesub hnotree0 hfold_inv
      obtain ⟨hFlF, hTrF, hTEF, hQF, hCovF, huDF, _, huQF, hExF⟩ := hinvF
      have hrun : bfsRun g (fuel + 1) s
          = bfsRun g fuel (processVertex g u { s with queue := rest }) := by
        simp only [bfsRun, hq]
      rw [hrun]
      apply ih
      have hpv : processVertex g u { s with queue := rest }
          = { (incidentEdges g u).foldl (processEdge u) { s with queue := rest } with
              finished :=
                u :: ((incidentEdges g u).foldl (processEdge u)
                        { s with queue := rest }).finished } := by
        simp only [processVertex]
      rw [hpv]
      refine ⟨hFlF, hTrF, hTEF, ?_, ⟨hQF.1, ?_, ?_⟩, ?_⟩
      · intro ex hex
        rcases hExF ex hex with h | h
        · exact List.mem_cons_of_mem _ h
        · rw [h]; exact List.mem_cons_self _ _
      · intro v hv
        refine ⟨(hQF.2.1 v hv).1, ?_⟩
        intro hvin
        rcases List.mem_cons.mp hvin with rfl | hvf
        · exact huQF hv
        · exact (hQF.2.1 v hv).2 hvf
      · intro v hv
        rcases List.mem_cons.mp hv with rfl | hvf
        · exact huDF
        · exact hQF.2.2 v hvf
      · intro e he hfe
        have hend : (e.src = u ∨ e.tgt = u) → e ∈ incidentEdges g u := by
          intro h
          apply List.mem_filter.mpr
          refine ⟨he, ?_⟩
          simp only [Bool.or_eq_true, beq_iff_eq]
          exact h
        rcases hfe with h | h
        · rcases List.mem_cons.mp h with heq | hf
          · exact hcovF e (hend (Or.inl heq))
          · exact hCovF e he (Or.inl hf)
        · rcases List.mem_cons.mp h with heq | hf
          · exact hcovF e (hend (Or.inr heq))
          · exact hCovF e he (Or.inr hf)

/-- Claim C9 (spec-modelled: the BFS TreeView builder is not part of these
sources): during TreeView construction, every examination of an incident
edge of a processed vertex that found its neighbour already visited —
including edges re-reaching an ancestor already fully processed (back
edges) and edges into a sibling branch, and excluding only the edge used to
reach the examining vertex from its own parent — ends with that edge
recorded in crossEdges and not used by any parent link of the tree. -/
theorem treeview_cross_edge_recording (g : List GEdge) (r : Nat) (hg : g.Nodup) :
    ∀ ex ∈ (buildTreeView g r).exams,
      ex.targetDiscovered = true → ex.wasReachEdge = false →
        ex.edge ∈ (buildTreeView g r).cross ∧
        ∀ t ∈ (buildTreeView g r).tree, ¬ t.viaEdge = ex.edge := by
  intro ex hex h1 h2
  have hinv := bfsRun_inv g hg (2 * g.length + 2) (initState r) (inv_init g r)
  have hres := hinv.1 ex hex h1 h2
  exact ⟨hres.1, hres.2.1⟩

/-- The triangle 0—1—2—0 used as the C9 witness graph. -/
def c9Graph : List GEdge := [⟨1, 0, 1, 5⟩, ⟨2, 1, 2, 5⟩, ⟨3, 2, 0, 5⟩]

/-- Witness for C9: in the triangle rooted at 0, vertex 2 examines the edge
1→2 whose neighbour 1 is already fully processed (a back-style edge) and
which is not 2's reach edge; the theorem places that edge in crossEdges and
outside the tree. -/
theorem treeview_cross_edge_recording_witness :
    (c9Graph.Nodup ∧
       (⟨2, ⟨2, 1, 2, 5⟩, true, false⟩ : Exam) ∈ (buildTreeView c9Graph 0).exams) ∧
      ((⟨2, 1, 2, 5⟩ : GEdge) ∈ (buildTreeView c9Graph 0).cross ∧
        ∀ t ∈ (buildTreeView c9Graph 0).tree, ¬ t.viaEdge = ⟨2, 1, 2, 5⟩) :=
  ⟨⟨by decide, by decide⟩,
   treeview_cross_edge_recording c9Graph 0 (by decide)
     ⟨2, ⟨2, 1, 2, 5⟩, true, false⟩ (by decide) rfl rfl⟩

end EnvireCore
